import Mathlib

/-!
Shallow embedding of the stellar-merch-shop Soroban contract
(src/contracts/stellar-merch-shop/src/contract.rs) and proofs about its
specification.

Modelling conventions:
* Bytes are natural numbers below 256; byte strings (soroban Bytes, BytesN,
  String) are lists of bytes.  Addresses are opaque in soroban except for
  equality, so they are modelled as natural numbers.
* The persistent key-value store of the host is modelled by explicit
  association lists inside a ContractState record, one list per keyed family
  of NFTStorageKey entries, plus plain fields for the instance entries
  (Admin, Name, Symbol, URI, MaxTokens, NextTokenId).
* A contract invocation runs inside the host transaction: any panic aborts
  the call and discards every speculative write.  Operations are therefore
  embedded as functions returning Except CallError; an error result carries
  no state, which is exactly the all-or-nothing commit of the host.
* The host primitive secp256k1_recover is an external collaborator; the
  development is parameterised by a RecoverFn.  The host primitive sha256 is
  implemented in full below (FIPS 180-4) so that digests are computed, not
  stipulated.
* Machine integers (u32 nonces and balances, u64 token ids) are embedded as
  Nat.  Where overflow matters (balance arithmetic) the operations addU32 and
  subU32 make the u32 checks explicit.
-/
deriving instance DecidableEq for Except

/-! ## Association-list view of the persistent key-value store -/
/-- Read the binding of key k in an association list (first match wins),
mirroring storage().persistent().get. -/
def kvGet {α β : Type} [DecidableEq α] : List (α × β) → α → Option β
  | [], _ => none
  | (k0, v0) :: rest, k => if k = k0 then some v0 else kvGet rest k

/-- Write the binding of key k, mirroring storage().persistent().set: the
first existing binding is replaced in place, otherwise the binding is
appended. -/
def kvSet {α β : Type} [DecidableEq α] : List (α × β) → α → β → List (α × β)
  | [], k, v => [(k, v)]
  | (k0, v0) :: rest, k, v =>
      if k = k0 then (k, v) :: rest else (k0, v0) :: kvSet rest k v

/-! ## SHA-256 (the host primitive env.crypto().sha256), FIPS 180-4 -/
/-- Right rotation of a 32-bit word. -/
def rotr32 (n x : Nat) : Nat :=
  ((x >>> n) ||| (x <<< (32 - n))) % 4294967296

/-- Big-endian bytes of a 32-bit word. -/
def be32 (n : Nat) : List Nat :=
  [(n >>> 24) % 256, (n >>> 16) % 256, (n >>> 8) % 256, n % 256]

/-- Big-endian bytes of a 64-bit length field. -/
def be64 (n : Nat) : List Nat :=
  [(n >>> 56) % 256, (n >>> 48) % 256, (n >>> 40) % 256, (n >>> 32) % 256,
   (n >>> 24) % 256, (n >>> 16) % 256, (n >>> 8) % 256, n % 256]

/-- SHA-256 round constants. -/
def sha256K : List Nat :=
  [1116352408, 1899447441, 3049323471, 3921009573, 961987163,
   1508970993, 2453635748, 2870763221, 3624381080, 310598401,
   607225278, 1426881987, 1925078388, 2162078206, 2614888103,
   3248222580, 3835390401, 4022224774, 264347078, 604807628,
   770255983, 1249150122, 1555081692, 1996064986, 2554220882,
   2821834349, 2952996808, 3210313671, 3336571891, 3584528711,
   113926993, 338241895, 666307205, 773529912, 1294757372,
   1396182291, 1695183700, 1986661051, 2177026350, 2456956037,
   2730485921, 2820302411, 3259730800, 3345764771, 3516065817,
   3600352804, 4094571909, 275423344, 430227734, 506948616,
   659060556, 883997877, 958139571, 1322822218, 1537002063,
   1747873779, 1955562222, 2024104815, 2227730452, 2361852424,
   2428436474, 2756734187, 3204031479, 3329325298]

/-- Working state of the compression function. -/
structure Hash8 where
  a : Nat
  b : Nat
  c : Nat
  d : Nat
  e : Nat
  f : Nat
  g : Nat
  h : Nat
deriving DecidableEq, Repr

/-- Initial hash value. -/
def sha256H0 : Hash8 :=
  ⟨1779033703, 3144134277, 1013904242, 2773480762,
   1359893119, 2600822924, 528734635, 1541459225⟩

/-- Group a 64-byte block into sixteen 32-bit big-endian words. -/
def blockWords : List Nat → List Nat
  | b0 :: b1 :: b2 :: b3 :: rest =>
      (b0 * 16777216 + b1 * 65536 + b2 * 256 + b3) :: blockWords rest
  | _ => []

/-- One round of the SHA-256 compression function. -/
def sha256Round (st : Hash8) (ki wi : Nat) : Hash8 :=
  let s1 := rotr32 6 st.e ^^^ rotr32 11 st.e ^^^ rotr32 25 st.e
  let ch := (st.e &&& st.f) ^^^ ((st.e ^^^ 4294967295) &&& st.g)
  let temp1 := (st.h + s1 + ch + ki + wi) % 4294967296
  let s0 := rotr32 2 st.a ^^^ rotr32 13 st.a ^^^ rotr32 22 st.a
  let maj := (st.a &&& st.b) ^^^ (st.a &&& st.c) ^^^ (st.b &&& st.c)
  let temp2 := (s0 + maj) % 4294967296
  { a := (temp1 + temp2) % 4294967296, b := st.a, c := st.b, d := st.c,
    e := (st.d + temp1) % 4294967296, f := st.e, g := st.f, h := st.g }

/-- Process one 64-byte block: extend the message schedule to 64 words and
run the 64 compression rounds. -/
def sha256Block (hv : Hash8) (block : List Nat) : Hash8 :=
  let w0 := (blockWords block).toArray
  let w := (List.range 48).foldl (fun w _ =>
    let i := w.size
    let x15 := w.getD (i - 15) 0
    let x2 := w.getD (i - 2) 0
    let s0 := rotr32 7 x15 ^^^ rotr32 18 x15 ^^^ (x15 >>> 3)
    let s1 := rotr32 17 x2 ^^^ rotr32 19 x2 ^^^ (x2 >>> 10)
    w.push ((w.getD (i - 16) 0 + s0 + w.getD (i - 7) 0 + s1) % 4294967296)) w0
  let st := (List.zip sha256K w.toList).foldl
    (fun st kw => sha256Round st kw.1 kw.2) hv
  { a := (hv.a + st.a) % 4294967296, b := (hv.b + st.b) % 4294967296,
    c := (hv.c + st.c) % 4294967296, d := (hv.d + st.d) % 4294967296,
    e := (hv.e + st.e) % 4294967296, f := (hv.f + st.f) % 4294967296,
    g := (hv.g + st.g) % 4294967296, h := (hv.h + st.h) % 4294967296 }

/-- Append the FIPS 180-4 padding: a 0x80 byte, zeros, and the 64-bit
big-endian bit length, reaching a multiple of 64 bytes. -/
def sha256Pad (msg : List Nat) : List Nat :=
  let L := msg.length
  let k := (64 - ((L + 9) % 64)) % 64
  msg ++ [128] ++ List.replicate k 0 ++ be64 (8 * L)

/-- Split a byte string into 64-byte chunks; the fuel argument is a bound on
the number of chunks that keeps the recursion structural. -/
def chunksAux : Nat → List Nat → List (List Nat)
  | 0, _ => []
  | _, [] => []
  | fuel + 1, x :: rest => (x :: rest).take 64 :: chunksAux fuel ((x :: rest).drop 64)

/-- Split a byte string into 64-byte chunks. -/
def chunks64 (l : List Nat) : List (List Nat) := chunksAux l.length l

/-- SHA-256 of a byte string, as 32 bytes. -/
def sha256 (msg : List Nat) : List Nat :=
  let fin := (chunks64 (sha256Pad msg)).foldl sha256Block sha256H0
  be32 fin.a ++ be32 fin.b ++ be32 fin.c ++ be32 fin.d ++
  be32 fin.e ++ be32 fin.f ++ be32 fin.g ++ be32 fin.h

/-! ## Envelope encoding and error taxonomy -/
/-- XDR encoding of a u32 value as produced by nonce.to_xdr(e) in the source:
the ScVal union tag SCV_U32 (3) as a 4-byte big-endian int, followed by the
4-byte big-endian value. -/
def xdrU32 (n : Nat) : List Nat := [0, 0, 0, 3] ++ be32 n

/-- Digest computed by verify_chip_signature: sha256 of the message followed
by the XDR encoding of the nonce. -/
def messageHash (message : List Nat) (nonce : Nat) : List Nat :=
  sha256 (message ++ xdrU32 nonce)

/-- Spec-side encoding for comparison: a plain 4-byte big-endian rendering of
the 32-bit nonce, written with divisions as in the spec prose. -/
def specBe4 (n : Nat) : List Nat :=
  [(n / 16777216) % 256, (n / 65536) % 256, (n / 256) % 256, n % 256]

/-- Contract error codes from errors.rs. -/
inductive NonFungibleTokenError where
  | NonExistentToken
  | IncorrectOwner
  | InsufficientApproval
  | InvalidApprover
  | InvalidLiveUntilLedger
  | MathOverflow
  | TokenIDsAreDepleted
  | InvalidAmount
  | TokenNotFoundInOwnerList
  | TokenNotFoundInGlobalList
  | TokenAlreadyMinted
  | BaseUriMaxLenExceeded
  | InvalidRoyaltyAmount
  | UnsetMetadata
  | InvalidSignature
deriving DecidableEq, Repr

/-- Numeric codes of the contracterror enum. -/
def errorCode : NonFungibleTokenError → Nat
  | .NonExistentToken => 200
  | .IncorrectOwner => 201
  | .InsufficientApproval => 202
  | .InvalidApprover => 203
  | .InvalidLiveUntilLedger => 204
  | .MathOverflow => 205
  | .TokenIDsAreDepleted => 206
  | .InvalidAmount => 207
  | .TokenNotFoundInOwnerList => 208
  | .TokenNotFoundInGlobalList => 209
  | .TokenAlreadyMinted => 210
  | .BaseUriMaxLenExceeded => 211
  | .InvalidRoyaltyAmount => 212
  | .UnsetMetadata => 213
  | .InvalidSignature => 214

/-- Reason a call aborts: either a contract error raised by
panic_with_error, or a trap raised inside the host crypto primitive
secp256k1_recover (for example an out-of-range recovery id). -/
inductive CallError where
  | contract : NonFungibleTokenError → CallError
  | cryptoPanic : CallError
deriving DecidableEq, Repr

/-! ## Contract state and host parameters -/
/-- A 65-byte uncompressed secp256k1 public key, as a byte list. -/
abbrev PubKey := List Nat

/-- The host primitive secp256k1_recover as an external collaborator:
digest, 64-byte signature and recovery id give either a recovered 65-byte
public key or a host trap (modelled none). -/
abbrev RecoverFn := List Nat → List Nat → Nat → Option PubKey

/-- The persistent and instance storage of the contract, one field per entry
family of DataKey and NFTStorageKey that the implemented operations touch. -/
structure ContractState where
  admin : Nat
  name : List Nat
  symbol : List Nat
  uri : List Nat
  maxTokens : Nat
  nextTokenId : Nat
  nonces : List (PubKey × Nat)
  owners : List (Nat × Nat)
  pubKeyOf : List (Nat × PubKey)
  tokenIdOf : List (PubKey × Nat)
  balances : List (Nat × Nat)
deriving DecidableEq, Repr

/-- Largest u32 value. -/
def U32MAX : Nat := 4294967295

/-- Modelled from the spec: checked u32 addition.  The profile section that
fixes the Rust overflow behaviour (Cargo.toml) is not under src/; the spec
requires that balance arithmetic abort with an overflow error rather than
wrap, so the addition aborts with MathOverflow when the sum leaves u32. -/
def addU32 (a b : Nat) : Except CallError Nat :=
  if a + b ≤ U32MAX then .ok (a + b) else .error (.contract .MathOverflow)

/-- Modelled from the spec: checked u32 subtraction.  As for addU32, the
overflow-checks profile is not under src/; the spec requires that an
underflow abort with an overflow error rather than wrap modulo 2 to the 32. -/
def subU32 (a b : Nat) : Except CallError Nat :=
  if b ≤ a then .ok (a - b) else .error (.contract .MathOverflow)

/-- State produced by the constructor: metadata fields set, NextTokenId 0,
every keyed family empty. -/
def constructState (admin : Nat) (name symbol uri : List Nat)
    (max_tokens : Nat) : ContractState :=
  { admin := admin, name := name, symbol := symbol, uri := uri,
    maxTokens := max_tokens, nextTokenId := 0,
    nonces := [], owners := [], pubKeyOf := [], tokenIdOf := [],
    balances := [] }

/-! ## Contract operations (contract.rs) -/
/-- Read accessor get_nonce: stored nonce for a public key, defaulting to 0
on first use. -/
def get_nonce (st : ContractState) (public_key : PubKey) : Nat :=
  (kvGet st.nonces public_key).getD 0

/-- Read accessor balance: stored balance of an owner, defaulting to 0. -/
def balance (st : ContractState) (owner : Nat) : Nat :=
  (kvGet st.balances owner).getD 0

/-- Read accessor owner_of: owner of a token id, NonExistentToken when the
token has no owner entry. -/
def owner_of (st : ContractState) (token_id : Nat) : Except CallError Nat :=
  match kvGet st.owners token_id with
  | some a => .ok a
  | none => .error (.contract .NonExistentToken)

/-- Embedding of verify_chip_signature: read the stored nonce (default 0),
require the presented nonce strictly larger, hash the message with the XDR
encoded nonce appended, recover a key and require it equal to the presented
key; on success write the presented nonce back for that key. -/
def verify_chip_signature (R : RecoverFn) (st : ContractState)
    (message signature : List Nat) (recovery_id : Nat) (public_key : PubKey)
    (nonce : Nat) : Except CallError ContractState :=
  let stored_nonce := (kvGet st.nonces public_key).getD 0
  if nonce ≤ stored_nonce then .error (.contract .InvalidSignature)
  else
    match R (messageHash message nonce) signature recovery_id with
    | none => .error .cryptoPanic
    | some recovered =>
      if recovered = public_key then
        .ok { st with nonces := kvSet st.nonces public_key nonce }
      else .error (.contract .InvalidSignature)

/-- Embedding of mint: verify the envelope, reject an already bound key,
reject an exhausted supply counter, then allocate the id, advance the
counter and record the key-id binding in both directions. -/
def mint (R : RecoverFn) (st : ContractState) (message signature : List Nat)
    (recovery_id : Nat) (public_key : PubKey) (nonce : Nat) :
    Except CallError (ContractState × Nat) :=
  match verify_chip_signature R st message signature recovery_id public_key nonce with
  | .error e => .error e
  | .ok st1 =>
    if (kvGet st1.tokenIdOf public_key).isSome then
      .error (.contract .TokenAlreadyMinted)
    else
      let token_id := st1.nextTokenId
      let max_tokens := st1.maxTokens
      if max_tokens ≤ token_id then
        .error (.contract .TokenIDsAreDepleted)
      else
        .ok ({ st1 with
                nextTokenId := token_id + 1,
                tokenIdOf := kvSet st1.tokenIdOf public_key token_id,
                pubKeyOf := kvSet st1.pubKeyOf token_id public_key },
             token_id)

/-- Embedding of claim: verify the envelope, resolve the key to a token id,
reject a token that already has an owner, then set the owner to the claimant
and increment the claimant balance. -/
def claim (R : RecoverFn) (st : ContractState) (claimant : Nat)
    (message signature : List Nat) (recovery_id : Nat) (public_key : PubKey)
    (nonce : Nat) : Except CallError (ContractState × Nat) :=
  match verify_chip_signature R st message signature recovery_id public_key nonce with
  | .error e => .error e
  | .ok st1 =>
    match kvGet st1.tokenIdOf public_key with
    | none => .error (.contract .NonExistentToken)
    | some token_id =>
      if (kvGet st1.owners token_id).isSome then
        .error (.contract .TokenAlreadyMinted)
      else
        let st2 := { st1 with owners := kvSet st1.owners token_id claimant }
        let claimant_balance := (kvGet st2.balances claimant).getD 0
        match addU32 claimant_balance 1 with
        | .error e => .error e
        | .ok nb =>
          .ok ({ st2 with balances := kvSet st2.balances claimant nb },
               token_id)

/-- Embedding of transfer: verify the envelope, require the token to exist
and its bound chip key to equal the presented key, require the owner to be
from, then set the owner to to, decrement the from balance and increment the
to balance, the second read seeing the first write. -/
def transfer (R : RecoverFn) (st : ContractState) (from_a to_a token_id : Nat)
    (message signature : List Nat) (recovery_id : Nat) (public_key : PubKey)
    (nonce : Nat) : Except CallError ContractState :=
  match verify_chip_signature R st message signature recovery_id public_key nonce with
  | .error e => .error e
  | .ok st1 =>
    match kvGet st1.pubKeyOf token_id with
    | none => .error (.contract .NonExistentToken)
    | some stored_public_key =>
      if stored_public_key ≠ public_key then
        .error (.contract .InvalidSignature)
      else
        match owner_of st1 token_id with
        | .error e => .error e
        | .ok owner =>
          if owner ≠ from_a then
            .error (.contract .IncorrectOwner)
          else
            let st2 := { st1 with owners := kvSet st1.owners token_id to_a }
            let from_balance := (kvGet st2.balances from_a).getD 0
            match subU32 from_balance 1 with
            | .error e => .error e
            | .ok fb =>
              let st3 := { st2 with balances := kvSet st2.balances from_a fb }
              let to_balance := (kvGet st3.balances to_a).getD 0
              match addU32 to_balance 1 with
              | .error e => .error e
              | .ok tb =>
                .ok { st3 with balances := kvSet st3.balances to_a tb }

/-- States reachable from construction by successful operations, all calls
sharing one recovery oracle. -/
inductive Reachable (R : RecoverFn) : ContractState → Prop where
  | construct (admin : Nat) (name symbol uri : List Nat) (max_tokens : Nat) :
      Reachable R (constructState admin name symbol uri max_tokens)
  | mintStep {st st' : ContractState} {m s : List Nat} {rid : Nat}
      {pk : PubKey} {n tid : Nat} :
      Reachable R st → mint R st m s rid pk n = .ok (st', tid) →
      Reachable R st'
  | claimStep {st st' : ContractState} {c : Nat} {m s : List Nat} {rid : Nat}
      {pk : PubKey} {n tid : Nat} :
      Reachable R st → claim R st c m s rid pk n = .ok (st', tid) →
      Reachable R st'
  | transferStep {st st' : ContractState} {f t tid : Nat} {m s : List Nat}
      {rid : Nat} {pk : PubKey} {n : Nat} :
      Reachable R st → transfer R st f t tid m s rid pk n = .ok st' →
      Reachable R st'

/-- Sum of the stored values of an association list. -/
def sndSum {α : Type} (l : List (α × Nat)) : Nat := (l.map Prod.snd).sum

/-- Number of bindings in an association list holding a given value; on the
owners list this is the number of tokens owned by an address. -/
def valCount {α : Type} (l : List (α × Nat)) (a : Nat) : Nat :=
  (l.filter (fun p => decide (p.2 = a))).length

/-! ## Reachability invariant -/
/-- Ledger invariant: every balance counts the tokens owned by that address,
the balance total counts the owned tokens, and the reverse index pubKeyOf is
inverted by tokenIdOf. -/
def StateInv (st : ContractState) : Prop :=
  (∀ a, balance st a = valCount st.owners a) ∧
  sndSum st.balances = st.owners.length ∧
  (∀ t pk, kvGet st.pubKeyOf t = some pk → kvGet st.tokenIdOf pk = some t)

/-! ## Concrete states used by witnesses and counterexamples -/
/-- A 65-byte chip public key. -/
def pkW : PubKey := List.replicate 65 7

/-- A second, different 65-byte chip public key. -/
def pkW2 : PubKey := List.replicate 65 9

/-- A 64-byte signature placeholder. -/
def sigW : List Nat := List.replicate 64 0

/-- A concrete recovery oracle that always recovers pkW. -/
def RW : RecoverFn := fun _ _ _ => some (List.replicate 65 7)

/-- State right after construction with cap 10. -/
def stW0 : ContractState := constructState 0 [] [] [] 10

/-- The state stW0 with the nonce record of pkW set to n. -/
def nvs (st : ContractState) (n : Nat) : ContractState :=
  { st with nonces := [(pkW, n)] }

/-- State after minting token 0 for pkW with nonce 1. -/
def stW1 : ContractState :=
  { stW0 with nextTokenId := 1, nonces := [(pkW, 1)],
              tokenIdOf := [(pkW, 0)], pubKeyOf := [(0, pkW)] }

/-- State after address 100 claimed token 0 with nonce 2. -/
def stW2 : ContractState :=
  { stW1 with nonces := [(pkW, 2)], owners := [(0, 100)],
              balances := [(100, 1)] }

/-- State after transferring token 0 from 100 to 200 with nonce 3. -/
def stW3 : ContractState :=
  { stW2 with nonces := [(pkW, 3)], owners := [(0, 200)],
              balances := [(100, 0), (200, 1)] }

/-- The state stW2 with the chip key of token 0 replaced by pkW2. -/
def stMis : ContractState := { stW2 with pubKeyOf := [(0, pkW2)] }

/-- The state stW0 with the id counter forced to the cap. -/
def stFull : ContractState := { stW0 with nextTokenId := 10 }

/-- The state stW2 with the balance table erased, breaking the balance
invariant. -/
def stBroken : ContractState := { stW2 with balances := [] }

/-- Result of the self-transfer of token 0 from 100 to 100 at stW2. -/
def stSelf : ContractState := { stW2 with nonces := [(pkW, 3)] }

/-- Validation of the SHA-256 embedding against the FIPS test vector for the
empty message. -/
theorem sha256_empty_vector :
    sha256 [] =
      [227, 176, 196, 66, 152, 252, 28, 20,
       154, 251, 244, 200, 153, 111, 185, 36,
       39, 174, 65, 228, 100, 155, 147, 76,
       164, 149, 153, 27, 120, 82, 184, 85] := by decide

/-- Validation of the SHA-256 embedding against the FIPS test vector for the
three-byte message abc. -/
theorem sha256_abc_vector :
    sha256 [97, 98, 99] =
      [186, 120, 22, 191, 143, 1, 207, 234,
       65, 65, 64, 222, 93, 174, 34, 35,
       176, 3, 97, 163, 150, 23, 122, 156,
       180, 16, 255, 97, 242, 0, 21, 173] := by decide

/-! ## Association-list lemmas -/
theorem kvGet_kvSet_self {α β : Type} [DecidableEq α]
    (l : List (α × β)) (k : α) (v : β) :
    kvGet (kvSet l k v) k = some v := by
  induction l with
  | nil => simp [kvSet, kvGet]
  | cons p rest ih =>
    obtain ⟨k0, v0⟩ := p
    by_cases h : k = k0
    · simp [kvSet, kvGet, h]
    · simp [kvSet, kvGet, h, ih]

theorem kvGet_kvSet_ne {α β : Type} [DecidableEq α]
    (l : List (α × β)) (k k' : α) (v : β) (h : k' ≠ k) :
    kvGet (kvSet l k v) k' = kvGet l k' := by
  induction l with
  | nil => simp [kvSet, kvGet, h]
  | cons p rest ih =>
    obtain ⟨k0, v0⟩ := p
    by_cases hk : k = k0
    · subst hk
      simp [kvSet, kvGet, h]
    · by_cases hk' : k' = k0
      · simp [kvSet, kvGet, hk, hk']
      · simp [kvSet, kvGet, hk, hk', ih]

theorem kvSet_kvSet_same {α β : Type} [DecidableEq α]
    (l : List (α × β)) (k : α) (v w : β) :
    kvSet (kvSet l k v) k w = kvSet l k w := by
  induction l with
  | nil => simp [kvSet]
  | cons p rest ih =>
    obtain ⟨k0, v0⟩ := p
    by_cases h : k = k0
    · simp [kvSet, h]
    · simp [kvSet, h, ih]

theorem kvSet_of_kvGet_eq {α β : Type} [DecidableEq α]
    {l : List (α × β)} {k : α} {v : β} (h : kvGet l k = some v) :
    kvSet l k v = l := by
  induction l with
  | nil => simp [kvGet] at h
  | cons p rest ih =>
    obtain ⟨k0, v0⟩ := p
    by_cases hk : k = k0
    · subst hk
      simp [kvGet] at h
      simp [kvSet, h]
    · simp [kvGet, hk] at h
      simp [kvSet, hk, ih h]

theorem kvSet_of_kvGet_none {α β : Type} [DecidableEq α]
    {l : List (α × β)} {k : α} (v : β) (h : kvGet l k = none) :
    kvSet l k v = l ++ [(k, v)] := by
  induction l with
  | nil => simp [kvSet]
  | cons p rest ih =>
    obtain ⟨k0, v0⟩ := p
    by_cases hk : k = k0
    · simp [kvGet, hk] at h
    · simp [kvGet, hk] at h
      simp [kvSet, hk, ih h]

theorem sndSum_cons {α : Type} (p : α × Nat) (l : List (α × Nat)) :
    sndSum (p :: l) = p.2 + sndSum l := by
  simp [sndSum]

theorem sndSum_kvSet_some {α : Type} [DecidableEq α]
    {l : List (α × Nat)} {k : α} {b : Nat} (v : Nat)
    (h : kvGet l k = some b) :
    sndSum (kvSet l k v) + b = sndSum l + v := by
  induction l with
  | nil => simp [kvGet] at h
  | cons p rest ih =>
    obtain ⟨k0, v0⟩ := p
    by_cases hk : k = k0
    · subst hk
      simp [kvGet] at h
      subst h
      simp [kvSet, sndSum_cons]
      omega
    · simp [kvGet, hk] at h
      have := ih h
      simp [kvSet, hk, sndSum_cons]
      omega

theorem sndSum_kvSet_none {α : Type} [DecidableEq α]
    {l : List (α × Nat)} {k : α} (v : Nat) (h : kvGet l k = none) :
    sndSum (kvSet l k v) = sndSum l + v := by
  rw [kvSet_of_kvGet_none v h]
  simp [sndSum]

theorem length_kvSet_some {α β : Type} [DecidableEq α]
    {l : List (α × β)} {k : α} {b : β} (v : β) (h : kvGet l k = some b) :
    (kvSet l k v).length = l.length := by
  induction l with
  | nil => simp [kvGet] at h
  | cons p rest ih =>
    obtain ⟨k0, v0⟩ := p
    by_cases hk : k = k0
    · simp [kvSet, hk]
    · simp [kvGet, hk] at h
      simp [kvSet, hk, ih h]

theorem length_kvSet_none {α β : Type} [DecidableEq α]
    {l : List (α × β)} {k : α} (v : β) (h : kvGet l k = none) :
    (kvSet l k v).length = l.length + 1 := by
  rw [kvSet_of_kvGet_none v h]
  simp

theorem valCount_cons {α : Type} (p : α × Nat) (l : List (α × Nat)) (a : Nat) :
    valCount (p :: l) a = valCount l a + (if p.2 = a then 1 else 0) := by
  simp only [valCount, List.filter_cons]
  split <;> simp_all

theorem valCount_kvSet_some {α : Type} [DecidableEq α]
    {l : List (α × Nat)} {k : α} {b : Nat} (v a : Nat)
    (h : kvGet l k = some b) :
    valCount (kvSet l k v) a + (if b = a then 1 else 0)
      = valCount l a + (if v = a then 1 else 0) := by
  induction l with
  | nil => simp [kvGet] at h
  | cons p rest ih =>
    obtain ⟨k0, v0⟩ := p
    by_cases hk : k = k0
    · subst hk
      simp [kvGet] at h
      subst h
      simp [kvSet, valCount_cons]
      omega
    · simp [kvGet, hk] at h
      have := ih h
      simp [kvSet, hk, valCount_cons]
      omega

theorem valCount_kvSet_none {α : Type} [DecidableEq α]
    {l : List (α × Nat)} {k : α} (v a : Nat) (h : kvGet l k = none) :
    valCount (kvSet l k v) a = valCount l a + (if v = a then 1 else 0) := by
  rw [kvSet_of_kvGet_none v h]
  simp only [valCount, List.filter_append]
  simp only [List.length_append, List.filter]
  split <;> simp_all

theorem valCount_pos {α : Type} [DecidableEq α]
    {l : List (α × Nat)} {k : α} {a : Nat} (h : kvGet l k = some a) :
    1 ≤ valCount l a := by
  induction l with
  | nil => simp [kvGet] at h
  | cons p rest ih =>
    obtain ⟨k0, v0⟩ := p
    by_cases hk : k = k0
    · subst hk
      simp [kvGet] at h
      subst h
      simp [valCount_cons]
    · simp [kvGet, hk] at h
      have := ih h
      simp [valCount_cons]
      omega

/-! ## Inversion lemmas for the operations -/
theorem verify_stale {R : RecoverFn} {st : ContractState} {m s : List Nat}
    {rid : Nat} {pk : PubKey} {n : Nat} (h : n ≤ get_nonce st pk) :
    verify_chip_signature R st m s rid pk n
      = .error (.contract .InvalidSignature) := by
  unfold verify_chip_signature
  simp only [get_nonce] at h
  rw [if_pos h]

theorem verify_ok_elim {R : RecoverFn} {st st1 : ContractState}
    {m s : List Nat} {rid : Nat} {pk : PubKey} {n : Nat}
    (h : verify_chip_signature R st m s rid pk n = .ok st1) :
    st1 = { st with nonces := kvSet st.nonces pk n } ∧ get_nonce st pk < n := by
  simp only [verify_chip_signature] at h
  split at h
  · exact absurd h (by simp)
  · rename_i hle
    split at h
    · exact absurd h (by simp)
    · rename_i rec hR
      split at h
      · rename_i hrec
        refine ⟨?_, ?_⟩
        · injection h with h2
          exact h2.symm
        · simp only [get_nonce]
          omega
      · exact absurd h (by simp)

theorem verify_ok_mem {R : RecoverFn} {st : ContractState}
    {m s : List Nat} {rid : Nat} {pk : PubKey} {n : Nat}
    (hlt : get_nonce st pk < n)
    (hR : R (messageHash m n) s rid = some pk) :
    verify_chip_signature R st m s rid pk n
      = .ok { st with nonces := kvSet st.nonces pk n } := by
  unfold verify_chip_signature
  simp only [get_nonce] at hlt
  rw [if_neg (by omega), hR]
  simp

theorem mint_stale {R : RecoverFn} {st : ContractState} {m s : List Nat}
    {rid : Nat} {pk : PubKey} {n : Nat} (h : n ≤ get_nonce st pk) :
    mint R st m s rid pk n = .error (.contract .InvalidSignature) := by
  unfold mint
  rw [verify_stale h]

theorem claim_stale {R : RecoverFn} {st : ContractState} {c : Nat}
    {m s : List Nat} {rid : Nat} {pk : PubKey} {n : Nat}
    (h : n ≤ get_nonce st pk) :
    claim R st c m s rid pk n = .error (.contract .InvalidSignature) := by
  unfold claim
  rw [verify_stale h]

theorem transfer_stale {R : RecoverFn} {st : ContractState} {f t tid : Nat}
    {m s : List Nat} {rid : Nat} {pk : PubKey} {n : Nat}
    (h : n ≤ get_nonce st pk) :
    transfer R st f t tid m s rid pk n
      = .error (.contract .InvalidSignature) := by
  unfold transfer
  rw [verify_stale h]

theorem mint_ok_elim {R : RecoverFn} {st st2 : ContractState}
    {m s : List Nat} {rid : Nat} {pk : PubKey} {n tid : Nat}
    (h : mint R st m s rid pk n = .ok (st2, tid)) :
    get_nonce st pk < n ∧
    kvGet st.tokenIdOf pk = none ∧
    st.nextTokenId < st.maxTokens ∧
    tid = st.nextTokenId ∧
    st2 = { st with nonces := kvSet st.nonces pk n,
                    nextTokenId := st.nextTokenId + 1,
                    tokenIdOf := kvSet st.tokenIdOf pk st.nextTokenId,
                    pubKeyOf := kvSet st.pubKeyOf st.nextTokenId pk } := by
  unfold mint at h
  cases hv : verify_chip_signature R st m s rid pk n with
  | error e => rw [hv] at h; exact absurd h (by simp)
  | ok st1 =>
    rw [hv] at h
    obtain ⟨hst1, hlt⟩ := verify_ok_elim hv
    subst hst1
    simp only at h
    split at h
    · exact absurd h (by simp)
    · rename_i hdup
      split at h
      · exact absurd h (by simp)
      · rename_i hcap
        injection h with h2
        injection h2 with h3 h4
        refine ⟨hlt, ?_, by omega, h4.symm, h3.symm⟩
        simpa using hdup

theorem addU32_ok {a b r : Nat} (h : addU32 a b = .ok r) :
    a + b ≤ U32MAX ∧ r = a + b := by
  unfold addU32 at h
  split at h
  · refine ⟨by assumption, ?_⟩
    injection h with h2
    exact h2.symm
  · exact absurd h (by simp)

theorem addU32_ok_of {a b : Nat} (h : a + b ≤ U32MAX) :
    addU32 a b = .ok (a + b) := by
  unfold addU32
  rw [if_pos h]

theorem subU32_ok {a b r : Nat} (h : subU32 a b = .ok r) :
    b ≤ a ∧ r = a - b := by
  unfold subU32 at h
  split at h
  · refine ⟨by assumption, ?_⟩
    injection h with h2
    exact h2.symm
  · exact absurd h (by simp)

theorem subU32_ok_of {a b : Nat} (h : b ≤ a) :
    subU32 a b = .ok (a - b) := by
  unfold subU32
  rw [if_pos h]

theorem subU32_err_of {a b : Nat} (h : a < b) :
    subU32 a b = .error (.contract .MathOverflow) := by
  unfold subU32
  rw [if_neg (by omega)]

theorem owner_of_ok {st : ContractState} {tid o : Nat}
    (h : owner_of st tid = .ok o) : kvGet st.owners tid = some o := by
  unfold owner_of at h
  cases hk : kvGet st.owners tid with
  | some a =>
    rw [hk] at h
    injection h with h2
    rw [h2]
  | none => rw [hk] at h; exact absurd h (by simp)

theorem claim_ok_elim {R : RecoverFn} {st st2 : ContractState} {c : Nat}
    {m s : List Nat} {rid : Nat} {pk : PubKey} {n tid : Nat}
    (h : claim R st c m s rid pk n = .ok (st2, tid)) :
    get_nonce st pk < n ∧
    kvGet st.tokenIdOf pk = some tid ∧
    kvGet st.owners tid = none ∧
    balance st c + 1 ≤ U32MAX ∧
    st2 = { st with nonces := kvSet st.nonces pk n,
                    owners := kvSet st.owners tid c,
                    balances := kvSet st.balances c (balance st c + 1) } := by
  unfold claim at h
  cases hv : verify_chip_signature R st m s rid pk n with
  | error e => rw [hv] at h; exact absurd h (by simp)
  | ok st1 =>
    rw [hv] at h
    obtain ⟨hst1, hlt⟩ := verify_ok_elim hv
    subst hst1
    dsimp only at h
    split at h
    · exact absurd h (by simp)
    · rename_i token_id hlook
      split at h
      · exact absurd h (by simp)
      · rename_i hown
        cases hadd : addU32 ((kvGet st.balances c).getD 0) 1 with
        | error e => rw [hadd] at h; exact absurd h (by simp)
        | ok nb =>
          rw [hadd] at h
          obtain ⟨hle, hnb⟩ := addU32_ok hadd
          subst hnb
          injection h with h2
          injection h2 with h3 h4
          subst h4
          refine ⟨hlt, hlook, ?_, hle, h3.symm⟩
          simpa using hown

theorem transfer_ok_elim {R : RecoverFn} {st st2 : ContractState}
    {f t tid : Nat} {m s : List Nat} {rid : Nat} {pk : PubKey} {n : Nat}
    (h : transfer R st f t tid m s rid pk n = .ok st2) :
    get_nonce st pk < n ∧
    kvGet st.pubKeyOf tid = some pk ∧
    kvGet st.owners tid = some f ∧
    1 ≤ balance st f ∧
    (kvGet (kvSet st.balances f (balance st f - 1)) t).getD 0 + 1 ≤ U32MAX ∧
    st2 = { st with
            nonces := kvSet st.nonces pk n,
            owners := kvSet st.owners tid t,
            balances := kvSet (kvSet st.balances f (balance st f - 1)) t
              ((kvGet (kvSet st.balances f (balance st f - 1)) t).getD 0 + 1) } := by
  unfold transfer at h
  cases hv : verify_chip_signature R st m s rid pk n with
  | error e => rw [hv] at h; exact absurd h (by simp)
  | ok st1 =>
    rw [hv] at h
    obtain ⟨hst1, hlt⟩ := verify_ok_elim hv
    subst hst1
    dsimp only at h
    split at h
    · exact absurd h (by simp)
    · rename_i spk hpk
      split at h
      · exact absurd h (by simp)
      · rename_i hspk
        rw [not_not] at hspk
        subst hspk
        cases hoo : owner_of { st with nonces := kvSet st.nonces spk n } tid with
        | error e => rw [hoo] at h; exact absurd h (by simp)
        | ok owner =>
          rw [hoo] at h
          have howner : kvGet st.owners tid = some owner := owner_of_ok hoo
          split at h
          · rename_i e heq
            exact absurd heq (by simp)
          · rename_i owner2 heq
            injection heq with heq2
            subst heq2
            split at h
            · exact absurd h (by simp)
            · rename_i hof
              rw [not_not] at hof
              subst hof
              cases hsub : subU32 ((kvGet st.balances owner).getD 0) 1 with
              | error e => rw [hsub] at h; exact absurd h (by simp)
              | ok fb =>
                rw [hsub] at h
                obtain ⟨hge, hfb⟩ := subU32_ok hsub
                subst hfb
                split at h
                · rename_i e2 heq2
                  exact absurd heq2 (by simp)
                · rename_i fb2 heq2
                  injection heq2 with heq3
                  subst heq3
                  cases hadd : addU32
                      ((kvGet (kvSet st.balances owner
                        ((kvGet st.balances owner).getD 0 - 1)) t).getD 0) 1 with
                  | error e => rw [hadd] at h; exact absurd h (by simp)
                  | ok tb =>
                    rw [hadd] at h
                    obtain ⟨hle, htb⟩ := addU32_ok hadd
                    subst htb
                    injection h with h3
                    exact ⟨hlt, hpk, howner, hge, hle, h3.symm⟩

theorem mint_dup {R : RecoverFn} {st st1 : ContractState} {m s : List Nat}
    {rid : Nat} {pk : PubKey} {n t : Nat}
    (hv : verify_chip_signature R st m s rid pk n = .ok st1)
    (hbound : kvGet st.tokenIdOf pk = some t) :
    mint R st m s rid pk n = .error (.contract .TokenAlreadyMinted) := by
  obtain ⟨hst1, hlt⟩ := verify_ok_elim hv
  subst hst1
  unfold mint
  rw [hv]
  simp [hbound]

theorem mint_depleted {R : RecoverFn} {st st1 : ContractState} {m s : List Nat}
    {rid : Nat} {pk : PubKey} {n : Nat}
    (hv : verify_chip_signature R st m s rid pk n = .ok st1)
    (hfresh : kvGet st.tokenIdOf pk = none)
    (hcap : st.maxTokens ≤ st.nextTokenId) :
    mint R st m s rid pk n = .error (.contract .TokenIDsAreDepleted) := by
  obtain ⟨hst1, hlt⟩ := verify_ok_elim hv
  subst hst1
  unfold mint
  rw [hv]
  simp [hfresh, hcap]

theorem claim_nonexistent {R : RecoverFn} {st st1 : ContractState} {c : Nat}
    {m s : List Nat} {rid : Nat} {pk : PubKey} {n : Nat}
    (hv : verify_chip_signature R st m s rid pk n = .ok st1)
    (hnone : kvGet st.tokenIdOf pk = none) :
    claim R st c m s rid pk n = .error (.contract .NonExistentToken) := by
  obtain ⟨hst1, hlt⟩ := verify_ok_elim hv
  subst hst1
  unfold claim
  rw [hv]
  simp [hnone]

theorem claim_already {R : RecoverFn} {st st1 : ContractState} {c : Nat}
    {m s : List Nat} {rid : Nat} {pk : PubKey} {n tid o : Nat}
    (hv : verify_chip_signature R st m s rid pk n = .ok st1)
    (hsome : kvGet st.tokenIdOf pk = some tid)
    (hown : kvGet st.owners tid = some o) :
    claim R st c m s rid pk n = .error (.contract .TokenAlreadyMinted) := by
  obtain ⟨hst1, hlt⟩ := verify_ok_elim hv
  subst hst1
  unfold claim
  rw [hv]
  simp [hsome, hown]

theorem claim_ok_intro {R : RecoverFn} {st st1 : ContractState} {c : Nat}
    {m s : List Nat} {rid : Nat} {pk : PubKey} {n tid : Nat}
    (hv : verify_chip_signature R st m s rid pk n = .ok st1)
    (hsome : kvGet st.tokenIdOf pk = some tid)
    (hown : kvGet st.owners tid = none)
    (hle : balance st c + 1 ≤ U32MAX) :
    claim R st c m s rid pk n
      = .ok ({ st with nonces := kvSet st.nonces pk n,
                       owners := kvSet st.owners tid c,
                       balances := kvSet st.balances c (balance st c + 1) },
             tid) := by
  obtain ⟨hst1, hlt⟩ := verify_ok_elim hv
  subst hst1
  unfold claim
  rw [hv]
  simp only [balance] at hle
  simp [hsome, hown, addU32_ok_of hle, balance]

theorem transfer_wrong_key {R : RecoverFn} {st st1 : ContractState}
    {f t tid : Nat} {m s : List Nat} {rid : Nat} {pk spk : PubKey} {n : Nat}
    (hv : verify_chip_signature R st m s rid pk n = .ok st1)
    (hpk : kvGet st.pubKeyOf tid = some spk)
    (hne : spk ≠ pk) :
    transfer R st f t tid m s rid pk n
      = .error (.contract .InvalidSignature) := by
  obtain ⟨hst1, hlt⟩ := verify_ok_elim hv
  subst hst1
  unfold transfer
  rw [hv]
  simp [hpk, hne]

theorem transfer_wrong_owner {R : RecoverFn} {st st1 : ContractState}
    {f t tid : Nat} {m s : List Nat} {rid : Nat} {pk : PubKey} {n o : Nat}
    (hv : verify_chip_signature R st m s rid pk n = .ok st1)
    (hpk : kvGet st.pubKeyOf tid = some pk)
    (howner : kvGet st.owners tid = some o)
    (hne : o ≠ f) :
    transfer R st f t tid m s rid pk n
      = .error (.contract .IncorrectOwner) := by
  obtain ⟨hst1, hlt⟩ := verify_ok_elim hv
  subst hst1
  unfold transfer
  rw [hv]
  simp [hpk, owner_of, howner, hne]

theorem transfer_underflow {R : RecoverFn} {st st1 : ContractState}
    {f t tid : Nat} {m s : List Nat} {rid : Nat} {pk : PubKey} {n : Nat}
    (hv : verify_chip_signature R st m s rid pk n = .ok st1)
    (hpk : kvGet st.pubKeyOf tid = some pk)
    (howner : kvGet st.owners tid = some f)
    (hzero : balance st f = 0) :
    transfer R st f t tid m s rid pk n
      = .error (.contract .MathOverflow) := by
  obtain ⟨hst1, hlt⟩ := verify_ok_elim hv
  subst hst1
  unfold transfer
  rw [hv]
  simp only [balance] at hzero
  simp [hpk, owner_of, howner, subU32, hzero, U32MAX]

theorem transfer_ok_intro {R : RecoverFn} {st st1 : ContractState}
    {f t tid : Nat} {m s : List Nat} {rid : Nat} {pk : PubKey} {n : Nat}
    (hv : verify_chip_signature R st m s rid pk n = .ok st1)
    (hpk : kvGet st.pubKeyOf tid = some pk)
    (howner : kvGet st.owners tid = some f)
    (hb : 1 ≤ balance st f)
    (hcap : (kvGet (kvSet st.balances f (balance st f - 1)) t).getD 0 + 1 ≤ U32MAX) :
    transfer R st f t tid m s rid pk n
      = .ok { st with
              nonces := kvSet st.nonces pk n,
              owners := kvSet st.owners tid t,
              balances := kvSet (kvSet st.balances f (balance st f - 1)) t
                ((kvGet (kvSet st.balances f (balance st f - 1)) t).getD 0 + 1) } := by
  obtain ⟨hst1, hlt⟩ := verify_ok_elim hv
  subst hst1
  unfold transfer
  rw [hv]
  simp only [balance] at hb hcap
  simp [hpk, owner_of, howner, subU32_ok_of hb, addU32_ok_of hcap, balance]

theorem balance_some {st : ContractState} {f : Nat} (h : 1 ≤ balance st f) :
    kvGet st.balances f = some (balance st f) := by
  unfold balance at h ⊢
  cases hk : kvGet st.balances f with
  | none => rw [hk] at h; simp at h
  | some b => simp

theorem reachable_inv {R : RecoverFn} {st : ContractState}
    (h : Reachable R st) : StateInv st := by
  induction h with
  | construct a nm sy u mt =>
    refine ⟨fun a => rfl, rfl, ?_⟩
    intro t pk hq
    simp [constructState, kvGet] at hq
  | mintStep hreach hmint ih =>
    obtain ⟨hlt, hfresh, hcap, htid, hst2⟩ := mint_ok_elim hmint
    subst hst2
    rename_i st m s rid pk n tid
    refine ⟨fun a => ih.1 a, ih.2.1, ?_⟩
    intro t q hq
    show kvGet (kvSet st.tokenIdOf pk st.nextTokenId) q = some t
    replace hq : kvGet (kvSet st.pubKeyOf st.nextTokenId pk) t = some q := hq
    by_cases ht : t = st.nextTokenId
    · subst ht
      rw [kvGet_kvSet_self] at hq
      injection hq with hq2
      subst hq2
      exact kvGet_kvSet_self _ _ _
    · rw [kvGet_kvSet_ne _ _ _ _ ht] at hq
      have hold := ih.2.2 t q hq
      by_cases hqpk : q = pk
      · subst hqpk
        rw [hfresh] at hold
        exact absurd hold (by simp)
      · rw [kvGet_kvSet_ne _ _ _ _ hqpk]
        exact hold
  | claimStep hreach hclaim ih =>
    obtain ⟨hlt, hsome, hownnone, hle, hst2⟩ := claim_ok_elim hclaim
    subst hst2
    rename_i st c m s rid pk n tid
    refine ⟨?_, ?_, fun t q hq => ih.2.2 t q hq⟩
    · intro a
      show (kvGet (kvSet st.balances c (balance st c + 1)) a).getD 0
            = valCount (kvSet st.owners tid c) a
      rw [valCount_kvSet_none c a hownnone]
      by_cases hac : a = c
      · subst hac
        rw [kvGet_kvSet_self]
        have := ih.1 a
        simp [this]
      · rw [kvGet_kvSet_ne _ _ _ _ hac]
        have := ih.1 a
        unfold balance at this
        rw [this]
        have : c ≠ a := fun hc => hac hc.symm
        simp [this]
    · show sndSum (kvSet st.balances c (balance st c + 1))
            = (kvSet st.owners tid c).length
      rw [length_kvSet_none c hownnone]
      have hsum := ih.2.1
      cases hbc : kvGet st.balances c with
      | none =>
        have h0 : balance st c = 0 := by unfold balance; rw [hbc]; rfl
        rw [sndSum_kvSet_none _ hbc, h0]
        omega
      | some b =>
        have hbv : balance st c = b := by unfold balance; rw [hbc]; rfl
        have := sndSum_kvSet_some (l := st.balances) (balance st c + 1) hbc
        omega
  | transferStep hreach htr ih =>
    obtain ⟨hlt, hpk, howner, hb, hle, hst2⟩ := transfer_ok_elim htr
    subst hst2
    rename_i st f t tid m s rid pk n
    have hbf : kvGet st.balances f = some (balance st f) := balance_some hb
    refine ⟨?_, ?_, fun u q hq => ih.2.2 u q hq⟩
    · intro a
      have hca := valCount_kvSet_some t a howner
      show (kvGet (kvSet (kvSet st.balances f (balance st f - 1)) t
              ((kvGet (kvSet st.balances f (balance st f - 1)) t).getD 0 + 1))
            a).getD 0
            = valCount (kvSet st.owners tid t) a
      by_cases htf : t = f
      · rw [htf] at hca ⊢
        rw [kvGet_kvSet_self]
        simp only [Option.getD_some]
        have hB : balance st f - 1 + 1 = balance st f := by omega
        rw [hB, kvSet_kvSet_same, kvSet_of_kvGet_eq hbf]
        have h1a : (kvGet st.balances a).getD 0 = valCount st.owners a := ih.1 a
        omega
      · have hft : f ≠ t := fun hc => htf hc.symm
        by_cases haf : a = f
        · rw [haf] at hca ⊢
          rw [kvGet_kvSet_ne _ _ _ _ hft, kvGet_kvSet_self]
          simp only [Option.getD_some]
          have hca2 : valCount (kvSet st.owners tid t) f + 1
              = valCount st.owners f := by
            simpa [htf] using hca
          have h1f : balance st f = valCount st.owners f := ih.1 f
          omega
        · by_cases hat : a = t
          · rw [hat] at hca ⊢
            rw [kvGet_kvSet_self]
            simp only [Option.getD_some]
            rw [kvGet_kvSet_ne _ _ _ _ htf]
            have hca2 : valCount (kvSet st.owners tid t) t
                = valCount st.owners t + 1 := by
              simpa [hft] using hca
            have h1t : (kvGet st.balances t).getD 0
                = valCount st.owners t := ih.1 t
            omega
          · rw [kvGet_kvSet_ne _ _ _ _ hat, kvGet_kvSet_ne _ _ _ _ haf]
            have hfa : ¬ f = a := fun hc => haf hc.symm
            have hta : ¬ t = a := fun hc => hat hc.symm
            have hca2 : valCount (kvSet st.owners tid t) a
                = valCount st.owners a := by
              simpa [hfa, hta] using hca
            have h1a : (kvGet st.balances a).getD 0 = valCount st.owners a := ih.1 a
            omega
    · show sndSum (kvSet (kvSet st.balances f (balance st f - 1)) t
              ((kvGet (kvSet st.balances f (balance st f - 1)) t).getD 0 + 1))
            = (kvSet st.owners tid t).length
      rw [length_kvSet_some t howner]
      have hsum := ih.2.1
      have h1 := sndSum_kvSet_some (l := st.balances) (balance st f - 1) hbf
      cases hkt : kvGet (kvSet st.balances f (balance st f - 1)) t with
      | none =>
        rw [sndSum_kvSet_none _ hkt]
        simp only [Option.getD_none]
        omega
      | some tb =>
        simp only [Option.getD_some]
        have h2 := sndSum_kvSet_some
          (l := kvSet st.balances f (balance st f - 1)) (tb + 1) hkt
        omega

/-! ## Claims -/
/-- C1: for every state (hence every reachable one) and fixed public key, a
mint, claim or transfer call whose nonce is at most the stored nonce for
that key fails with the invalid-signature error; the rejection holds for an
arbitrary recovery oracle R, which is exactly the statement that the nonce
check precedes signature recovery; and after any accepted call the same
envelope is rejected, so a byte-identical resubmission fails. -/
theorem mint_claim_transfer_reject_stale_nonce
    (R : RecoverFn) (st : ContractState) (c f t tid : Nat)
    (m s : List Nat) (rid : Nat) (pk : PubKey) (n : Nat)
    (h : n ≤ get_nonce st pk) :
    mint R st m s rid pk n = .error (.contract .InvalidSignature) ∧
    claim R st c m s rid pk n = .error (.contract .InvalidSignature) ∧
    transfer R st f t tid m s rid pk n = .error (.contract .InvalidSignature) ∧
    (∀ st2 v m2 s2 rid2 n2, mint R st m2 s2 rid2 pk n2 = .ok (st2, v) →
      mint R st2 m2 s2 rid2 pk n2 = .error (.contract .InvalidSignature)) ∧
    (∀ st2 v m2 s2 rid2 n2 c2, claim R st c2 m2 s2 rid2 pk n2 = .ok (st2, v) →
      claim R st2 c2 m2 s2 rid2 pk n2 = .error (.contract .InvalidSignature)) ∧
    (∀ st2 m2 s2 rid2 n2 f2 t2 tid2,
      transfer R st f2 t2 tid2 m2 s2 rid2 pk n2 = .ok st2 →
      transfer R st2 f2 t2 tid2 m2 s2 rid2 pk n2
        = .error (.contract .InvalidSignature)) := by
  refine ⟨mint_stale h, claim_stale h, transfer_stale h, ?_, ?_, ?_⟩
  · intro st2 v m2 s2 rid2 n2 hok
    obtain ⟨_, _, _, _, hst2⟩ := mint_ok_elim hok
    apply mint_stale
    rw [hst2]
    show n2 ≤ (kvGet (kvSet st.nonces pk n2) pk).getD 0
    rw [kvGet_kvSet_self]
    simp
  · intro st2 v m2 s2 rid2 n2 c2 hok
    obtain ⟨_, _, _, _, hst2⟩ := claim_ok_elim hok
    apply claim_stale
    rw [hst2]
    show n2 ≤ (kvGet (kvSet st.nonces pk n2) pk).getD 0
    rw [kvGet_kvSet_self]
    simp
  · intro st2 m2 s2 rid2 n2 f2 t2 tid2 hok
    obtain ⟨_, _, _, _, _, hst2⟩ := transfer_ok_elim hok
    apply transfer_stale
    rw [hst2]
    show n2 ≤ (kvGet (kvSet st.nonces pk n2) pk).getD 0
    rw [kvGet_kvSet_self]
    simp

/-- C1 witness: at the post-mint state stW1 the stored nonce of pkW is 1, so
presenting nonce 1 again is rejected by all three operations; the third
conjunct instantiates the resubmission clause with the accepted mint
envelope itself. -/
theorem mint_claim_transfer_reject_stale_nonce_witness :
    mint RW stW1 [] sigW 0 pkW 1 = .error (.contract .InvalidSignature) ∧
    claim RW stW1 100 [] sigW 0 pkW 1 = .error (.contract .InvalidSignature) ∧
    transfer RW stW1 100 200 0 [] sigW 0 pkW 1
      = .error (.contract .InvalidSignature) := by
  obtain ⟨h1, h2, h3, _, _, _⟩ :=
    mint_claim_transfer_reject_stale_nonce RW stW1 100 100 200 0 [] sigW 0 pkW 1
      (by decide)
  obtain ⟨_, _, _, h4, _, _⟩ :=
    mint_claim_transfer_reject_stale_nonce RW stW0 100 100 200 0 [] sigW 0 pkW 0
      (by decide)
  exact ⟨h4 stW1 0 [] sigW 0 1 (by decide), h2, h3⟩

/-- C2 counterexample: the signature-verification routine does perform a
state write.  At the freshly constructed state stW0 a successful
verification returns a state whose nonce record for pkW has been advanced
to the presented nonce, so the output state differs from the input state. -/
theorem verify_writes_state_counterexample :
    verify_chip_signature RW stW0 [] sigW 0 pkW 1 = .ok (nvs stW0 1) ∧
    nvs stW0 1 ≠ stW0 :=
  ⟨by decide, by decide⟩

/-- C2 amended: verify_chip_signature does write state, but its only write
is the nonce record of the presented key, advanced to exactly the presented
nonce; because every operation runs in the all-or-nothing host transaction
(an aborting call yields an error carrying no state), the nonce advance is
observable only when the encompassing operation succeeds, and then the
stored nonce equals the presented nonce. -/
theorem verify_writes_exactly_the_nonce
    (R : RecoverFn) (st st1 st2 : ContractState) (c f t tid v : Nat)
    (m s : List Nat) (rid : Nat) (pk : PubKey) (n : Nat) :
    (verify_chip_signature R st m s rid pk n = .ok st1 →
      st1 = { st with nonces := kvSet st.nonces pk n }) ∧
    (mint R st m s rid pk n = .ok (st2, v) → get_nonce st2 pk = n) ∧
    (claim R st c m s rid pk n = .ok (st2, v) → get_nonce st2 pk = n) ∧
    (transfer R st f t tid m s rid pk n = .ok st2 → get_nonce st2 pk = n) := by
  refine ⟨fun hv => (verify_ok_elim hv).1, ?_, ?_, ?_⟩
  · intro hok
    obtain ⟨_, _, _, _, hst2⟩ := mint_ok_elim hok
    rw [hst2]
    show (kvGet (kvSet st.nonces pk n) pk).getD 0 = n
    rw [kvGet_kvSet_self]
    rfl
  · intro hok
    obtain ⟨_, _, _, _, hst2⟩ := claim_ok_elim hok
    rw [hst2]
    show (kvGet (kvSet st.nonces pk n) pk).getD 0 = n
    rw [kvGet_kvSet_self]
    rfl
  · intro hok
    obtain ⟨_, _, _, _, _, hst2⟩ := transfer_ok_elim hok
    rw [hst2]
    show (kvGet (kvSet st.nonces pk n) pk).getD 0 = n
    rw [kvGet_kvSet_self]
    rfl

/-- C2 amended witness: the successful mint at stW0 and the successful claim
at stW1 leave the stored nonce of pkW at exactly the presented nonce. -/
theorem verify_writes_exactly_the_nonce_witness :
    get_nonce stW1 pkW = 1 ∧ get_nonce stW2 pkW = 2 := by
  have h1 := (verify_writes_exactly_the_nonce RW stW0 (nvs stW0 1) stW1
    100 100 200 0 0 [] sigW 0 pkW 1).2.1 (by decide)
  have h2 := (verify_writes_exactly_the_nonce RW stW1 (nvs stW1 2) stW2
    100 100 200 0 0 [] sigW 0 pkW 2).2.2.1 (by decide)
  exact ⟨h1, h2⟩

/-- C9 counterexample: the digest is not SHA-256 of the message followed by
the plain 4-byte big-endian nonce; at the empty message and nonce 1 the two
digests differ, because the code appends the 8-byte XDR ScVal encoding of
the nonce instead. -/
theorem digest_not_plain_be4_counterexample :
    messageHash [] 1 ≠ sha256 ([] ++ specBe4 1) := by decide

/-- C9 amended: the digest equals SHA-256 of the message concatenated with a
canonical fixed-width deterministic encoding of the nonce, but that encoding
is the 8-byte XDR encoding of the nonce as an ScVal U32 (the constant tag
bytes 0 0 0 3 followed by the 4-byte big-endian value), not the bare 4-byte
big-endian form; the encoding has fixed width 8 and is injective on u32
values. -/
theorem digest_uses_xdr_nonce_encoding (m : List Nat) (n n2 : Nat) :
    messageHash m n = sha256 (m ++ ([0, 0, 0, 3] ++ specBe4 n)) ∧
    (xdrU32 n).length = 8 ∧
    (n < 4294967296 → n2 < 4294967296 → xdrU32 n = xdrU32 n2 → n = n2) := by
  refine ⟨?_, by simp [xdrU32, be32], ?_⟩
  · show sha256 (m ++ xdrU32 n) = sha256 (m ++ ([0, 0, 0, 3] ++ specBe4 n))
    have hx : xdrU32 n = [0, 0, 0, 3] ++ specBe4 n := by
      simp [xdrU32, be32, specBe4, Nat.shiftRight_eq_div_pow]
    rw [hx]
  · intro h1 h2 h3
    simp [xdrU32, be32, Nat.shiftRight_eq_div_pow] at h3
    omega

/-- C9 amended witness: the equality of digests at the empty message and
nonce 5, the width of the encoding, and injectivity instantiated at 5. -/
theorem digest_uses_xdr_nonce_encoding_witness :
    messageHash [] 5 = sha256 ([] ++ ([0, 0, 0, 3] ++ specBe4 5)) ∧
    (xdrU32 5).length = 8 ∧ (5 : Nat) = 5 := by
  refine ⟨(digest_uses_xdr_nonce_encoding [] 5 5).1,
          (digest_uses_xdr_nonce_encoding [] 5 5).2.1,
          (digest_uses_xdr_nonce_encoding [] 5 5).2.2 (by decide) (by decide) rfl⟩

/-- C3: given a successful verification of the envelope, transfer fails
with invalid-signature when the presented key differs from the chip key
bound to the token at mint time; otherwise fails with incorrect-owner when
from is not the current owner, even though the chip signature is fully
valid; otherwise (for distinct from and to, within u32 bounds) it succeeds,
sets the owner of the token to to, decrements the from balance by 1 and
increments the to balance by 1. -/
theorem transfer_key_owner_checks_and_effects
    (R : RecoverFn) (st st1 : ContractState) (f t tid : Nat)
    (m s : List Nat) (rid : Nat) (pk spk : PubKey) (n o : Nat)
    (hv : verify_chip_signature R st m s rid pk n = .ok st1) :
    (kvGet st.pubKeyOf tid = some spk → spk ≠ pk →
      transfer R st f t tid m s rid pk n
        = .error (.contract .InvalidSignature)) ∧
    (kvGet st.pubKeyOf tid = some pk → kvGet st.owners tid = some o →
      o ≠ f →
      transfer R st f t tid m s rid pk n
        = .error (.contract .IncorrectOwner)) ∧
    (kvGet st.pubKeyOf tid = some pk → kvGet st.owners tid = some f →
      f ≠ t → 1 ≤ balance st f → balance st t < U32MAX →
      ∃ st2, transfer R st f t tid m s rid pk n = .ok st2 ∧
        kvGet st2.owners tid = some t ∧
        balance st2 f = balance st f - 1 ∧
        balance st2 t = balance st t + 1) := by
  refine ⟨fun h1 h2 => transfer_wrong_key hv h1 h2,
          fun h1 h2 h3 => transfer_wrong_owner hv h1 h2 h3, ?_⟩
  intro hk ho hft hb hcap
  have hbf := balance_some hb
  have htb : (kvGet (kvSet st.balances f (balance st f - 1)) t).getD 0
      = balance st t := by
    rw [kvGet_kvSet_ne _ _ _ _ (fun hc => hft hc.symm)]
    rfl
  have hcap2 : (kvGet (kvSet st.balances f (balance st f - 1)) t).getD 0 + 1
      ≤ U32MAX := by rw [htb]; omega
  refine ⟨_, transfer_ok_intro hv hk ho hb hcap2, ?_, ?_, ?_⟩
  · exact kvGet_kvSet_self _ _ _
  · show (kvGet (kvSet (kvSet st.balances f (balance st f - 1)) t
        ((kvGet (kvSet st.balances f (balance st f - 1)) t).getD 0 + 1))
        f).getD 0 = balance st f - 1
    rw [kvGet_kvSet_ne _ _ _ _ hft, kvGet_kvSet_self]
    rfl
  · show (kvGet (kvSet (kvSet st.balances f (balance st f - 1)) t
        ((kvGet (kvSet st.balances f (balance st f - 1)) t).getD 0 + 1))
        t).getD 0 = balance st t + 1
    rw [kvGet_kvSet_self]
    simp only [Option.getD_some]
    rw [htb]

/-- C3 witness: at a state whose token 0 is bound to pkW2 the transfer with
pkW fails invalid-signature; at stW2 a transfer from the non-owner 999
fails incorrect-owner despite a valid signature; and the genuine transfer
of token 0 from 100 to 200 at stW2 succeeds with the stated effects. -/
theorem transfer_key_owner_checks_and_effects_witness :
    transfer RW stMis 100 200 0 [] sigW 0 pkW 4
      = .error (.contract .InvalidSignature) ∧
    transfer RW stW2 999 200 0 [] sigW 0 pkW 3
      = .error (.contract .IncorrectOwner) ∧
    (∃ st2, transfer RW stW2 100 200 0 [] sigW 0 pkW 3 = .ok st2 ∧
      kvGet st2.owners 0 = some 200 ∧
      balance st2 100 = balance stW2 100 - 1 ∧
      balance st2 200 = balance stW2 200 + 1) := by
  refine ⟨?_, ?_, ?_⟩
  · exact (transfer_key_owner_checks_and_effects RW stMis (nvs stMis 4)
      100 200 0 [] sigW 0 pkW pkW2 4 0 (by decide)).1 (by decide) (by decide)
  · exact (transfer_key_owner_checks_and_effects RW stW2 (nvs stW2 3)
      999 200 0 [] sigW 0 pkW pkW 3 100 (by decide)).2.1
      (by decide) (by decide) (by decide)
  · exact (transfer_key_owner_checks_and_effects RW stW2 (nvs stW2 3)
      100 200 0 [] sigW 0 pkW pkW 3 0 (by decide)).2.2
      (by decide) (by decide) (by decide) (by decide) (by decide)

/-- Successful transfer leaves the sum of all stored balances unchanged:
the from entry loses exactly 1 and the to entry gains exactly 1, the second
read seeing the first write. -/
theorem transfer_preserves_sndSum {R : RecoverFn} {st st2 : ContractState}
    {f t tid : Nat} {m s : List Nat} {rid : Nat} {pk : PubKey} {n : Nat}
    (h : transfer R st f t tid m s rid pk n = .ok st2) :
    sndSum st2.balances = sndSum st.balances := by
  obtain ⟨_, _, _, hb, _, hst2⟩ := transfer_ok_elim h
  subst hst2
  have hbf := balance_some hb
  show sndSum (kvSet (kvSet st.balances f (balance st f - 1)) t
      ((kvGet (kvSet st.balances f (balance st f - 1)) t).getD 0 + 1))
      = sndSum st.balances
  have h1 := sndSum_kvSet_some (l := st.balances) (balance st f - 1) hbf
  cases hkt : kvGet (kvSet st.balances f (balance st f - 1)) t with
  | none =>
    rw [sndSum_kvSet_none _ hkt]
    simp only [Option.getD_none]
    omega
  | some tb =>
    simp only [Option.getD_some]
    have h2 := sndSum_kvSet_some
      (l := kvSet st.balances f (balance st f - 1)) (tb + 1) hkt
    omega

/-- C4: in every reachable state the sum of all stored balances equals the
number of owner entries, which is the number of tokens currently owned, and
the stored balance of every address equals the number of tokens whose owner
is that address; moreover any successful transfer from a reachable state
preserves the balance sum. -/
theorem balance_conservation
    (R : RecoverFn) (st : ContractState) (h : Reachable R st) :
    (sndSum st.balances = st.owners.length ∧
     ∀ a, balance st a = valCount st.owners a) ∧
    (∀ f t tid m s rid pk n st2,
      transfer R st f t tid m s rid pk n = .ok st2 →
      sndSum st2.balances = sndSum st.balances) := by
  have hi := reachable_inv h
  exact ⟨⟨hi.2.1, hi.1⟩,
         fun f t tid m s rid pk n st2 ht => transfer_preserves_sndSum ht⟩

/-- C4 witness: the reachable state stW2 (construct, mint, claim) satisfies
the conservation equalities, and the transfer to stW3 preserves the sum. -/
theorem balance_conservation_witness :
    sndSum stW2.balances = stW2.owners.length ∧
    balance stW2 100 = valCount stW2.owners 100 ∧
    sndSum stW3.balances = sndSum stW2.balances := by
  have hr0 : Reachable RW stW0 := Reachable.construct 0 [] [] [] 10
  have hr1 : Reachable RW stW1 :=
    @Reachable.mintStep RW stW0 stW1 [] sigW 0 pkW 1 0 hr0 (by decide)
  have hr2 : Reachable RW stW2 :=
    @Reachable.claimStep RW stW1 stW2 100 [] sigW 0 pkW 2 0 hr1 (by decide)
  have h := balance_conservation RW stW2 hr2
  exact ⟨h.1.1, h.1.2 100,
         h.2 100 200 0 [] sigW 0 pkW 3 stW3 (by decide)⟩

/-- C5: the constructor starts the id counter at 0; a successful mint
returns the pre-increment counter value and advances the counter by exactly
1, so ids are dense from 0; and once the counter has reached the configured
maximum supply, a mint that passes verification with an unbound key still
fails with the supply-depleted error (the error result carries no state, so
no id is allocated). -/
theorem token_ids_dense_and_supply_capped
    (R : RecoverFn) (st st1 st2 : ContractState) (admin : Nat)
    (nm sy u : List Nat) (mt : Nat) (m s : List Nat) (rid : Nat)
    (pk : PubKey) (n tid : Nat) :
    (constructState admin nm sy u mt).nextTokenId = 0 ∧
    (mint R st m s rid pk n = .ok (st2, tid) →
      tid = st.nextTokenId ∧ st2.nextTokenId = st.nextTokenId + 1) ∧
    (verify_chip_signature R st m s rid pk n = .ok st1 →
      kvGet st.tokenIdOf pk = none →
      st.maxTokens ≤ st.nextTokenId →
      mint R st m s rid pk n = .error (.contract .TokenIDsAreDepleted)) := by
  refine ⟨rfl, ?_, fun hv hf hc => mint_depleted hv hf hc⟩
  intro hok
  obtain ⟨_, _, _, htid, hst2⟩ := mint_ok_elim hok
  exact ⟨htid, by rw [hst2]⟩

/-- C5 witness: stW0 has counter 0 and cap 10; the mint to stW1 returns id
0 and moves the counter to 1; at the counter forced to the cap, a verified
mint with the unbound key pkW fails supply-depleted. -/
theorem token_ids_dense_and_supply_capped_witness :
    (constructState 0 [] [] [] 10).nextTokenId = 0 ∧
    (0 = stW0.nextTokenId ∧ stW1.nextTokenId = stW0.nextTokenId + 1) ∧
    mint RW stFull [] sigW 0 pkW 1 = .error (.contract .TokenIDsAreDepleted) := by
  refine ⟨(token_ids_dense_and_supply_capped RW stW0 (nvs stW0 1) stW1
      0 [] [] [] 10 [] sigW 0 pkW 1 0).1, ?_, ?_⟩
  · exact (token_ids_dense_and_supply_capped RW stW0 (nvs stW0 1) stW1
      0 [] [] [] 10 [] sigW 0 pkW 1 0).2.1 (by decide)
  · exact (token_ids_dense_and_supply_capped RW stFull (nvs stFull 1) stW1
      0 [] [] [] 10 [] sigW 0 pkW 1 0).2.2 (by decide) (by decide) (by decide)

/-- C6: in every reachable state the reverse index is consistent, so two
token ids bound to the same chip key coincide: each key binds to at most
one token; and a second mint presenting a key that already resolves to a
token fails with already-minted whenever verification succeeds (so with a
valid signature and strictly larger nonce); the conclusion holds with no
hypothesis on the supply counter, so the duplicate check decides before the
supply-cap check. -/
theorem chip_key_binds_at_most_one_token
    (R R2 : RecoverFn) (st st2 st1 : ContractState)
    (m s : List Nat) (rid : Nat) (pk : PubKey) (n t0 : Nat)
    (h : Reachable R st) :
    (∀ t1 t2 pk2, kvGet st.pubKeyOf t1 = some pk2 →
      kvGet st.pubKeyOf t2 = some pk2 → t1 = t2) ∧
    (verify_chip_signature R2 st2 m s rid pk n = .ok st1 →
      kvGet st2.tokenIdOf pk = some t0 →
      mint R2 st2 m s rid pk n = .error (.contract .TokenAlreadyMinted)) := by
  refine ⟨?_, fun hv hb => mint_dup hv hb⟩
  intro t1 t2 pk2 h1 h2
  have hi := reachable_inv h
  have a1 := hi.2.2 t1 pk2 h1
  have a2 := hi.2.2 t2 pk2 h2
  rw [a1] at a2
  injection a2

/-- C6 witness: at the reachable state stW2 the only token bound to pkW is
token 0, and at stW1 (counter 1, cap 10, so the supply check would pass) a
second verified mint with pkW and the larger nonce 2 fails already-minted. -/
theorem chip_key_binds_at_most_one_token_witness :
    (0 : Nat) = 0 ∧
    mint RW stW1 [] sigW 0 pkW 2 = .error (.contract .TokenAlreadyMinted) := by
  have hr0 : Reachable RW stW0 := Reachable.construct 0 [] [] [] 10
  have hr1 : Reachable RW stW1 :=
    @Reachable.mintStep RW stW0 stW1 [] sigW 0 pkW 1 0 hr0 (by decide)
  have hr2 : Reachable RW stW2 :=
    @Reachable.claimStep RW stW1 stW2 100 [] sigW 0 pkW 2 0 hr1 (by decide)
  have h := chip_key_binds_at_most_one_token RW RW stW2 stW1 (nvs stW1 2)
    [] sigW 0 pkW 2 0 hr2
  exact ⟨h.1 0 0 pkW (by decide) (by decide), h.2 (by decide) (by decide)⟩

/-- C7: given a successful verification of the envelope, claim fails with
nonexistent-token when the key resolves to no token; fails with
already-minted when the resolved token already has an owner, for every
claimant; and otherwise (within u32 balance bounds) succeeds, sets the
owner of the resolved token to the claimant, increments the claimant
balance by exactly 1 and returns the resolved id — the already-minted
rejection is precisely the guarantee that a token is claimed at most
once. -/
theorem claim_checks_and_effects
    (R : RecoverFn) (st st1 : ContractState) (c : Nat)
    (m s : List Nat) (rid : Nat) (pk : PubKey) (n tid o : Nat)
    (hv : verify_chip_signature R st m s rid pk n = .ok st1) :
    (kvGet st.tokenIdOf pk = none →
      claim R st c m s rid pk n = .error (.contract .NonExistentToken)) ∧
    (kvGet st.tokenIdOf pk = some tid → kvGet st.owners tid = some o →
      claim R st c m s rid pk n = .error (.contract .TokenAlreadyMinted)) ∧
    (kvGet st.tokenIdOf pk = some tid → kvGet st.owners tid = none →
      balance st c + 1 ≤ U32MAX →
      ∃ st2, claim R st c m s rid pk n = .ok (st2, tid) ∧
        kvGet st2.owners tid = some c ∧
        balance st2 c = balance st c + 1) := by
  refine ⟨fun h1 => claim_nonexistent hv h1,
          fun h1 h2 => claim_already hv h1 h2, ?_⟩
  intro hsome hown hle
  refine ⟨_, claim_ok_intro hv hsome hown hle, ?_, ?_⟩
  · exact kvGet_kvSet_self _ _ _
  · show (kvGet (kvSet st.balances c (balance st c + 1)) c).getD 0
        = balance st c + 1
    rw [kvGet_kvSet_self]
    rfl

/-- C7 witness: at stW0 the key pkW resolves to no token and claim fails
nonexistent-token; at stW2 token 0 is already owned by 100 and the claim by
the different address 777 fails already-minted; at stW1 the claim by 100
succeeds, sets the owner and moves the balance of 100 from 0 to 1. -/
theorem claim_checks_and_effects_witness :
    claim RW stW0 55 [] sigW 0 pkW 1 = .error (.contract .NonExistentToken) ∧
    claim RW stW2 777 [] sigW 0 pkW 3 = .error (.contract .TokenAlreadyMinted) ∧
    (∃ st2, claim RW stW1 100 [] sigW 0 pkW 2 = .ok (st2, 0) ∧
      kvGet st2.owners 0 = some 100 ∧
      balance st2 100 = balance stW1 100 + 1) := by
  refine ⟨?_, ?_, ?_⟩
  · exact (claim_checks_and_effects RW stW0 (nvs stW0 1) 55 [] sigW 0 pkW 1
      0 0 (by decide)).1 (by decide)
  · exact (claim_checks_and_effects RW stW2 (nvs stW2 3) 777 [] sigW 0 pkW 3
      0 100 (by decide)).2.1 (by decide) (by decide)
  · exact (claim_checks_and_effects RW stW1 (nvs stW1 2) 100 [] sigW 0 pkW 2
      0 0 (by decide)).2.2 (by decide) (by decide) (by decide)

/-- C8: under the invariant that every balance counts the owned tokens, the
owner-equality check of transfer guarantees that from holds at least one
token, so the decrement cannot underflow; and in a state that breaks the
invariant (owner matches but the from balance is 0) the checked subtraction
makes transfer abort with the overflow error instead of wrapping modulo 2
to the 32. -/
theorem transfer_balance_no_silent_wrap
    (R : RecoverFn) (st st1 : ContractState) (f t tid : Nat)
    (m s : List Nat) (rid : Nat) (pk : PubKey) (n : Nat) :
    ((∀ a, balance st a = valCount st.owners a) →
      kvGet st.owners tid = some f → 1 ≤ balance st f) ∧
    (verify_chip_signature R st m s rid pk n = .ok st1 →
      kvGet st.pubKeyOf tid = some pk →
      kvGet st.owners tid = some f →
      balance st f = 0 →
      transfer R st f t tid m s rid pk n
        = .error (.contract .MathOverflow)) := by
  refine ⟨?_, fun hv h1 h2 h3 => transfer_underflow hv h1 h2 h3⟩
  intro hinv ho
  rw [hinv f]
  exact valCount_pos ho

/-- C8 witness: the reachable state stW2 satisfies the invariant, so the
owner entry of token 0 forces the balance of 100 to be at least 1; in the
deliberately broken state with an erased balance table the same transfer
aborts with the overflow error. -/
theorem transfer_balance_no_silent_wrap_witness :
    1 ≤ balance stW2 100 ∧
    transfer RW stBroken 100 200 0 [] sigW 0 pkW 3
      = .error (.contract .MathOverflow) := by
  have hr0 : Reachable RW stW0 := Reachable.construct 0 [] [] [] 10
  have hr1 : Reachable RW stW1 :=
    @Reachable.mintStep RW stW0 stW1 [] sigW 0 pkW 1 0 hr0 (by decide)
  have hr2 : Reachable RW stW2 :=
    @Reachable.claimStep RW stW1 stW2 100 [] sigW 0 pkW 2 0 hr1 (by decide)
  refine ⟨?_, ?_⟩
  · exact (transfer_balance_no_silent_wrap RW stW2 (nvs stW2 3) 100 200 0
      [] sigW 0 pkW 3).1 (reachable_inv hr2).1 (by decide)
  · exact (transfer_balance_no_silent_wrap RW stBroken (nvs stBroken 3)
      100 200 0 [] sigW 0 pkW 3).2 (by decide) (by decide) (by decide)
      (by decide)

/-- C10: a successful self-transfer changes no balance and leaves the owner
of the token unchanged: the decrement is written before the increment reads
the same entry, so the read sees the decremented value and the final write
restores it. -/
theorem self_transfer_balance_noop
    (R : RecoverFn) (st st2 : ContractState) (f tid : Nat)
    (m s : List Nat) (rid : Nat) (pk : PubKey) (n : Nat)
    (h : transfer R st f f tid m s rid pk n = .ok st2) :
    (∀ a, balance st2 a = balance st a) ∧
    kvGet st2.owners tid = kvGet st.owners tid := by
  obtain ⟨hlt, hpk, howner, hb, hle, hst2⟩ := transfer_ok_elim h
  subst hst2
  have hbf := balance_some hb
  constructor
  · intro a
    show (kvGet (kvSet (kvSet st.balances f (balance st f - 1)) f
        ((kvGet (kvSet st.balances f (balance st f - 1)) f).getD 0 + 1))
        a).getD 0 = balance st a
    rw [kvGet_kvSet_self]
    simp only [Option.getD_some]
    have hB : balance st f - 1 + 1 = balance st f := by omega
    rw [hB, kvSet_kvSet_same, kvSet_of_kvGet_eq hbf]
    rfl
  · show kvGet (kvSet st.owners tid f) tid = kvGet st.owners tid
    rw [kvGet_kvSet_self, howner]

/-- C10 witness: the self-transfer of token 0 by owner 100 at stW2 succeeds
and only the nonce record changes: the balance of 100 and the owner of
token 0 are untouched. -/
theorem self_transfer_balance_noop_witness :
    balance stSelf 100 = balance stW2 100 ∧
    kvGet stSelf.owners 0 = kvGet stW2.owners 0 := by
  have h := self_transfer_balance_noop RW stW2 stSelf 100 0 [] sigW 0 pkW 3
    (by decide)
  exact ⟨h.1 100, h.2⟩
